import Mathlib

/-!
Formal model of the FlashForge Finder printer protocol client
(`src/api/socket_handler.py`, `src/api/protocol.py`,
`src/api/regex_patterns.py`), translated definition-by-definition from the
Python source.  Byte strings are modelled as `List Nat` (one element per
byte), text as `List Char` with `String` wrappers at the boundary.
-/

namespace FlashForge

/-- `startsWith pat l`: `pat` is a prefix of `l` (building block for
substring tests). -/
def startsWith {α : Type} [DecidableEq α] : List α → List α → Bool
  | [], _ => true
  | _ :: _, [] => false
  | p :: ps, x :: xs => decide (p = x) && startsWith ps xs

/-- `containsSub pat l`: `pat` occurs contiguously inside `l`; models the
Python substring test `pat in l` on strings and byte strings. -/
def containsSub {α : Type} [DecidableEq α] (pat : List α) : List α → Bool
  | [] => startsWith pat []
  | x :: t => startsWith pat (x :: t) || containsSub pat t

/-! ## CRC-32 (`zlib.crc32`) -/

/-- The reflected CRC-32 polynomial used by `zlib.crc32`. -/
def crcPoly : Nat := 0xEDB88320

/-- One bit step of reflected CRC-32: shift right, conditionally xor the
polynomial. -/
def crcStep (c : Nat) : Nat := if c % 2 = 1 then (c / 2) ^^^ crcPoly else c / 2

/-- Fold one input byte into the CRC state (8 bit steps). -/
def crcByte (c b : Nat) : Nat := crcStep^[8] (c ^^^ b)

/-- `zlib.crc32(d)`: standard CRC-32 with initial value and final xor
`0xFFFFFFFF`. -/
def crc32 (d : List Nat) : Nat := (d.foldl crcByte 0xFFFFFFFF) ^^^ 0xFFFFFFFF

/-! ## Upload packets (`send_file` in `socket_handler.py`) -/

/-- `CHUNK_SIZE = 4096` from `socket_handler.py`. -/
def CHUNK_SIZE : Nat := 4096

/-- One upload packet as built inside the `while offset < file_size` loop of
`send_file`: the header fields plus the zero-padded 4096-byte data block. -/
structure UploadPacket where
  counter : Nat
  chunkSize : Nat
  crc : Nat
  data : List Nat
deriving DecidableEq

/-- Build the packet for one slice `d = file_content[offset:chunk_end]`:
`crc = zlib.crc32(actual_data) & 0xffffffff` is computed on the unpadded
slice, and only then is the data padded with zero bytes up to `CHUNK_SIZE`. -/
def mkPacket (i : Nat) (d : List Nat) : UploadPacket :=
  { counter := i
    chunkSize := CHUNK_SIZE
    crc := crc32 d &&& 0xFFFFFFFF
    data := d ++ List.replicate (CHUNK_SIZE - d.length) 0 }

/-- Big-endian four-byte serialization of a `uint32` (`struct.pack '>I'`). -/
def be32 (x : Nat) : List Nat :=
  [x / 2 ^ 24 % 256, x / 2 ^ 16 % 256, x / 2 ^ 8 % 256, x % 256]

/-- The magic constant `0x5a 0x5a 0xa5 0xa5` packed as four single bytes. -/
def magicBytes : List Nat := [0x5a, 0x5a, 0xa5, 0xa5]

/-- `struct.pack('>BBBBIII', 0x5a, 0x5a, 0xa5, 0xa5, counter, CHUNK_SIZE, crc)`
followed by the padded data block: the whole wire packet. -/
def packetBytes (p : UploadPacket) : List Nat :=
  magicBytes ++ be32 p.counter ++ be32 p.chunkSize ++ be32 p.crc ++ p.data

/-- The successive slices `file_content[offset:offset + CHUNK_SIZE]` visited
by the upload loop of `send_file`. -/
def fileChunks (content : List Nat) : List (List Nat) :=
  if h : content = [] then []
  else content.take CHUNK_SIZE :: fileChunks (content.drop CHUNK_SIZE)
termination_by content.length
decreasing_by
  have h1 : 0 < content.length := List.length_pos.mpr h
  simp only [List.length_drop, CHUNK_SIZE]
  omega

/-- All packets emitted by the upload loop of `send_file`, in order: the
`i`-th packet frames the `i`-th chunk and carries counter `i`. -/
def sendFilePackets (content : List Nat) : List UploadPacket :=
  (fileChunks content).enum.map fun pr => mkPacket pr.1 pr.2

theorem fileChunks_nil : fileChunks [] = [] := by
  rw [fileChunks]
  rfl

theorem fileChunks_cons (c : List Nat) (h : c ≠ []) :
    fileChunks c = c.take CHUNK_SIZE :: fileChunks (c.drop CHUNK_SIZE) := by
  rw [fileChunks]
  simp [h]

/-- Recursion principle following the chunking loop. -/
theorem chunks_induction (P : List Nat → Prop) (h0 : P [])
    (hstep : ∀ c, c ≠ [] → P (c.drop CHUNK_SIZE) → P c) (c : List Nat) :
    P c := by
  by_cases h : c = []
  · exact h ▸ h0
  · exact hstep c h (chunks_induction P h0 hstep (c.drop CHUNK_SIZE))
termination_by c.length
decreasing_by
  have h1 : 0 < c.length := List.length_pos.mpr h
  simp only [List.length_drop, CHUNK_SIZE]
  omega

theorem fileChunks_length (c : List Nat) :
    (fileChunks c).length = (c.length + 4095) / 4096 := by
  induction c using chunks_induction with
  | h0 => simp [fileChunks_nil]
  | hstep c h ih =>
    rw [fileChunks_cons c h]
    simp only [CHUNK_SIZE, List.length_drop] at ih
    simp only [List.length_cons, CHUNK_SIZE, ih]
    have h1 : 0 < c.length := List.length_pos.mpr h
    rcases Nat.lt_or_ge c.length 4096 with hlt | hge
    · have e1 : c.length - 4096 = 0 := by omega
      rw [e1]
      have e2 : (c.length + 4095) / 4096 = 1 := by
        rw [Nat.div_eq_of_lt_le] <;> omega
      simp [e2]
    · have e1 : c.length - 4096 + 4095 + 4096 = c.length + 4095 := by omega
      rw [← e1, Nat.add_div_right _ (by norm_num)]

theorem fileChunks_flatten (c : List Nat) : (fileChunks c).flatten = c := by
  induction c using chunks_induction with
  | h0 => simp [fileChunks_nil]
  | hstep c h ih =>
    rw [fileChunks_cons c h]
    simp [ih]

theorem fileChunks_getElem (c : List Nat) :
    ∀ (i : Nat) (h : i < (fileChunks c).length),
      (fileChunks c)[i] = (c.drop (CHUNK_SIZE * i)).take CHUNK_SIZE := by
  induction c using chunks_induction with
  | h0 => intro i h; rw [fileChunks_nil] at h; simp at h
  | hstep c hc ih =>
    intro i h
    have e := fileChunks_cons c hc
    rw [List.getElem_of_eq e]
    rw [e] at h
    match i with
    | 0 => simp
    | Nat.succ j =>
      have hj : j < (fileChunks (c.drop CHUNK_SIZE)).length := by
        simpa using h
      simp only [List.getElem_cons_succ, ih j hj, List.drop_drop]
      congr 1
      rw [Nat.succ_eq_add_one, Nat.mul_add, Nat.mul_one, Nat.add_comm]

theorem mem_fileChunks_length_le (c : List Nat) :
    ∀ d ∈ fileChunks c, d.length ≤ CHUNK_SIZE := by
  induction c using chunks_induction with
  | h0 => intro d hd; rw [fileChunks_nil] at hd; simp at hd
  | hstep c hc ih =>
    intro d hd
    rw [fileChunks_cons c hc] at hd
    rcases List.mem_cons.mp hd with h | h
    · subst h
      simpa using List.length_take_le CHUNK_SIZE c
    · exact ih d h

theorem mem_fileChunks_subset (c : List Nat) :
    ∀ d ∈ fileChunks c, ∀ b ∈ d, b ∈ c := by
  induction c using chunks_induction with
  | h0 => intro d hd; rw [fileChunks_nil] at hd; simp at hd
  | hstep c hc ih =>
    intro d hd b hb
    rw [fileChunks_cons c hc] at hd
    rcases List.mem_cons.mp hd with h | h
    · exact List.take_subset _ _ (h ▸ hb)
    · exact List.drop_subset _ _ (ih d h b hb)

theorem crcStep_lt {c : Nat} (h : c < 2 ^ 32) : crcStep c < 2 ^ 32 := by
  unfold crcStep
  split
  · exact Nat.xor_lt_two_pow (lt_of_le_of_lt (Nat.div_le_self c 2) h)
      (by norm_num [crcPoly])
  · exact lt_of_le_of_lt (Nat.div_le_self c 2) h

theorem crcIter_lt : ∀ (n : Nat) {c : Nat}, c < 2 ^ 32 → crcStep^[n] c < 2 ^ 32 := by
  intro n
  induction n with
  | zero => intro c h; simpa using h
  | succ k ih =>
    intro c h
    rw [Function.iterate_succ_apply]
    exact ih (crcStep_lt h)

theorem crcByte_lt {c b : Nat} (hc : c < 2 ^ 32) (hb : b < 256) :
    crcByte c b < 2 ^ 32 := by
  unfold crcByte
  exact crcIter_lt 8 (Nat.xor_lt_two_pow hc (by omega))

theorem crcFold_lt : ∀ (d : List Nat) {c : Nat}, c < 2 ^ 32 →
    (∀ b ∈ d, b < 256) → List.foldl crcByte c d < 2 ^ 32 := by
  intro d
  induction d with
  | nil => intro c h _; simpa using h
  | cons x t ih =>
    intro c h hb
    simp only [List.foldl_cons]
    exact ih (crcByte_lt h (hb x (List.mem_cons_self x t)))
      fun b m => hb b (List.mem_cons_of_mem x m)

/-- The CRC-32 of a byte sequence fits in 32 bits, so the
`& 0xffffffff` mask in `send_file` is the identity. -/
theorem crc32_lt (d : List Nat) (h : ∀ b ∈ d, b < 256) : crc32 d < 2 ^ 32 := by
  unfold crc32
  exact Nat.xor_lt_two_pow (crcFold_lt d (by norm_num) h) (by norm_num)

theorem crc32_and_mask (d : List Nat) (h : ∀ b ∈ d, b < 256) :
    crc32 d &&& 0xFFFFFFFF = crc32 d := by
  have h1 : crc32 d < 2 ^ 32 := crc32_lt d h
  have e : (0xFFFFFFFF : Nat) = 2 ^ 32 - 1 := by norm_num
  rw [e, Nat.and_pow_two_sub_one_of_lt_two_pow h1]

/-- Restriction of `fileChunks` to inputs of at most one chunk,
where it produces a single unpadded chunk. -/
theorem fileChunks_small (c : List Nat) (h : c ≠ []) (hl : c.length ≤ 4096) :
    fileChunks c = [c] := by
  rw [fileChunks_cons c h]
  rw [List.take_of_length_le (by simpa [CHUNK_SIZE] using hl),
    List.drop_eq_nil_of_le (by simpa [CHUNK_SIZE] using hl), fileChunks_nil]

/-- **C1.** For every byte sequence `d` of length at most 4096 (so in
particular for every chunk of an uploaded file, including a short final
chunk), the `crc` header field of the packet built for `d` equals
`CRC32(d)`, the packet's 4096-byte data block truncated back to `d`'s
length is exactly `d`, and hence the CRC-32 of the data block with its
zero padding removed equals `CRC32(d)`: padding never affects the
checksum.  The second conjunct instantiates this for every packet
actually produced by `send_file`. -/
theorem crc_covers_unpadded_data :
    (∀ (i : Nat) (d : List Nat), d.length ≤ 4096 → (∀ b ∈ d, b < 256) →
      (mkPacket i d).crc = crc32 d ∧
      (mkPacket i d).data.take d.length = d ∧
      crc32 ((mkPacket i d).data.take d.length) = crc32 d) ∧
    ∀ (content : List Nat), (∀ b ∈ content, b < 256) →
      ∀ p ∈ sendFilePackets content, ∃ d : List Nat,
        d.length ≤ 4096 ∧ (∀ b ∈ d, b < 256) ∧ p = mkPacket p.counter d ∧
        p.crc = crc32 d ∧ crc32 (p.data.take d.length) = crc32 d := by
  have main : ∀ (i : Nat) (d : List Nat), d.length ≤ 4096 → (∀ b ∈ d, b < 256) →
      (mkPacket i d).crc = crc32 d ∧
      (mkPacket i d).data.take d.length = d ∧
      crc32 ((mkPacket i d).data.take d.length) = crc32 d := by
    intro i d _hl hb
    have hcrc : (mkPacket i d).crc = crc32 d := crc32_and_mask d hb
    have htake : (mkPacket i d).data.take d.length = d := by
      show (d ++ List.replicate (CHUNK_SIZE - d.length) 0).take d.length = d
      exact List.take_left d _
    exact ⟨hcrc, htake, by rw [htake]⟩
  refine ⟨main, ?_⟩
  intro content hcontent p hp
  rcases List.mem_map.mp hp with ⟨pr, hpr, hmk⟩
  rcases pr with ⟨i, d⟩
  have hd : d ∈ fileChunks content := List.snd_mem_of_mem_enum hpr
  have hlen : d.length ≤ 4096 := by
    simpa [CHUNK_SIZE] using mem_fileChunks_length_le content d hd
  have hbytes : ∀ b ∈ d, b < 256 :=
    fun b hb => hcontent b (mem_fileChunks_subset content d hd b hb)
  have hcounter : p.counter = i := by rw [← hmk]; rfl
  refine ⟨d, hlen, hbytes, ?_, ?_, ?_⟩
  · rw [hcounter, ← hmk]
  · rw [← hmk]
    exact (main i d hlen hbytes).1
  · rw [← hmk]
    exact (main i d hlen hbytes).2.2

/-- Closed-form spot check discharging the hypotheses of
`crc_covers_unpadded_data` on concrete inputs. -/
theorem crc_covers_unpadded_data_spotcheck :
    (mkPacket 0 [1, 2, 3]).crc = crc32 [1, 2, 3] ∧
    (mkPacket 0 [1, 2, 3]).data.take 3 = [1, 2, 3] ∧
    ∃ d : List Nat, d.length ≤ 4096 ∧ (∀ b ∈ d, b < 256) ∧
      mkPacket 0 [9] = mkPacket (mkPacket 0 [9]).counter d := by
  have h1 := crc_covers_unpadded_data.1 0 [1, 2, 3] (by decide) (by decide)
  have hch : fileChunks [9] = [[9]] := fileChunks_small [9] (by decide) (by decide)
  have hpk : sendFilePackets [9] = [mkPacket 0 [9]] := by
    rw [sendFilePackets, hch]
    rfl
  have hmem : mkPacket 0 [9] ∈ sendFilePackets [9] := by
    rw [hpk]
    exact List.mem_singleton.mpr rfl
  have h2 := crc_covers_unpadded_data.2 [9] (by decide) (mkPacket 0 [9]) hmem
  rcases h2 with ⟨d, hd1, hd2, hd3, -⟩
  exact ⟨h1.1, h1.2.1, d, hd1, hd2, hd3⟩

/-- **C2.** Round-trip law: truncating each packet's padded data block to
its chunk's real length — inferred only from the total file size and the
fixed 4096-byte chunking via the packet's sequence counter — and
concatenating the results in sequence order reproduces the uploaded byte
sequence exactly. -/
theorem upload_roundtrip (content : List Nat) :
    ((sendFilePackets content).map fun p =>
        p.data.take (min 4096 (content.length - 4096 * p.counter))).flatten
      = content := by
  have hmap : ((sendFilePackets content).map fun p =>
      p.data.take (min 4096 (content.length - 4096 * p.counter)))
      = fileChunks content := by
    apply List.ext_getElem
    · simp [sendFilePackets]
    · intro i h1 h2
      have hi : i < (fileChunks content).length := h2
      simp only [sendFilePackets, List.getElem_map, List.getElem_enum]
      have hchunk := fileChunks_getElem content i hi
      have hlen : ((fileChunks content)[i]).length
          = min 4096 (content.length - 4096 * i) := by
        rw [hchunk]
        simp [CHUNK_SIZE, Nat.mul_comm]
      show ((fileChunks content)[i] ++
          List.replicate (CHUNK_SIZE - ((fileChunks content)[i]).length) 0).take
          (min 4096 (content.length - 4096 * i)) = (fileChunks content)[i]
      rw [← hlen]
      exact List.take_left _ _
  rw [hmap, fileChunks_flatten]

/-- **C10.** For a file of `n` bytes, `send_file` emits exactly
`ceil(n / 4096)` data packets (none when `n = 0`); their sequence counters
are exactly `0, 1, 2, …` in order with no gaps or reordering; every packet
declares payload length 4096, carries a data block of exactly 4096 bytes
(real bytes then zero padding), and serializes to exactly
`16 + 4096 = 4112` bytes on the wire. -/
theorem upload_packet_framing (content : List Nat) :
    (content = [] → sendFilePackets content = []) ∧
    (sendFilePackets content).length = (content.length + 4095) / 4096 ∧
    (sendFilePackets content).map UploadPacket.counter
      = List.range ((content.length + 4095) / 4096) ∧
    ∀ p ∈ sendFilePackets content,
      p.chunkSize = 4096 ∧ p.data.length = 4096 ∧
      (packetBytes p).length = 4112 := by
  refine ⟨?_, ?_, ?_, ?_⟩
  · intro h
    rw [sendFilePackets, h, fileChunks_nil]
    rfl
  · simp [sendFilePackets, fileChunks_length]
  · simp only [sendFilePackets, List.map_map]
    have e : (UploadPacket.counter ∘ fun pr : Nat × List Nat => mkPacket pr.1 pr.2)
        = Prod.fst := by
      funext pr
      rfl
    rw [e, List.enum_map_fst, fileChunks_length]
  · intro p hp
    rcases List.mem_map.mp hp with ⟨⟨i, d⟩, hpr, hmk⟩
    have hd : d ∈ fileChunks content := List.snd_mem_of_mem_enum hpr
    have hlen : d.length ≤ 4096 := by
      simpa [CHUNK_SIZE] using mem_fileChunks_length_le content d hd
    have hdata : p.data.length = 4096 := by
      rw [← hmk]
      show (d ++ List.replicate (CHUNK_SIZE - d.length) 0).length = 4096
      simp [CHUNK_SIZE]
      omega
    refine ⟨by rw [← hmk]; rfl, hdata, ?_⟩
    simp [packetBytes, magicBytes, be32, hdata]

/-- Closed-form spot check discharging the hypotheses of
`upload_packet_framing` on concrete inputs. -/
theorem upload_packet_framing_spotcheck :
    sendFilePackets [] = [] ∧
    (sendFilePackets [7, 8, 9]).length = (3 + 4095) / 4096 ∧
    (mkPacket 0 [7, 8, 9]).chunkSize = 4096 ∧
    (mkPacket 0 [7, 8, 9]).data.length = 4096 ∧
    (packetBytes (mkPacket 0 [7, 8, 9])).length = 4112 := by
  have hch : fileChunks [7, 8, 9] = [[7, 8, 9]] :=
    fileChunks_small [7, 8, 9] (by decide) (by decide)
  have hpk : sendFilePackets [7, 8, 9] = [mkPacket 0 [7, 8, 9]] := by
    rw [sendFilePackets, hch]
    rfl
  have hmem : mkPacket 0 [7, 8, 9] ∈ sendFilePackets [7, 8, 9] := by
    rw [hpk]
    exact List.mem_singleton.mpr rfl
  have h4 := (upload_packet_framing [7, 8, 9]).2.2.2 (mkPacket 0 [7, 8, 9]) hmem
  refine ⟨(upload_packet_framing []).1 rfl, ?_, h4.1, h4.2.1, h4.2.2⟩
  rw [(upload_packet_framing [7, 8, 9]).2.1]
  rfl

/-! ## Session transport (`send_and_receive`, `send_file`, `upload_file`)

The peer (printer) is modelled as a script of receive events: each
`recv` call either yields a chunk of bytes or raises a timeout
(`socket.timeout`, which `settimeout` arms); when the script is
exhausted, the connection is closed and every further `recv` returns the
empty byte string.  The client's observable behaviour is the list of
socket events it performs plus its outcome. -/

/-- One result of a blocking `recv` call. -/
inductive RecvEv where
  | chunk : List Nat → RecvEv
  | timeout : RecvEv
deriving DecidableEq

/-- Observable socket actions of the client. -/
inductive NetEvent where
  | connect : NetEvent
  | send : List Nat → NetEvent
  | close : NetEvent
deriving DecidableEq

/-- Error outcomes: `validation` models the `ValueError` raised by
`upload_file` before any I/O; `transport` models a propagated socket
timeout; `upload` models the blanket `Exception('Upload failed: …')`
re-raised by `send_file`. -/
inductive Err where
  | validation : Err
  | transport : Err
  | upload : Err
deriving DecidableEq

deriving instance DecidableEq for Except

/-- ASCII encoding of a command string (`str.encode`). -/
def encodeStr (s : String) : List Nat := s.data.map Char.toNat

/-- The bytes `b'ok'`. -/
def okBytes : List Nat := [111, 107]

/-- The bytes `b'ok\r\n'`. -/
def okCRLF : List Nat := [111, 107, 13, 10]

/-- The bytes `b'ok\n'`. -/
def okLF : List Nat := [111, 107, 10]

/-- The handshake wait loop
`while b'ok' not in response: chunk = recv(); if not chunk: break; response += chunk`.
A timeout raises (error); exhaustion of the script means the peer closed,
which makes `recv` return `b''` and the loop break silently. -/
def waitForOk (evs : List RecvEv) (resp : List Nat) :
    Except Unit (List Nat × List RecvEv) :=
  if containsSub okBytes resp then Except.ok (resp, evs)
  else
    match evs with
    | [] => Except.ok (resp, [])
    | RecvEv.timeout :: _ => Except.error ()
    | RecvEv.chunk c :: rest =>
      if c = [] then Except.ok (resp, rest) else waitForOk rest (resp ++ c)

/-- The response collection loop of `send_and_receive`
(`while True: chunk = recv(); if not chunk: break; response += chunk;
if b'ok\r\n' in response or b'ok\n' in response: break`). -/
def readUntilOk (evs : List RecvEv) (resp : List Nat) :
    Except Unit (List Nat × List RecvEv) :=
  match evs with
  | [] => Except.ok (resp, [])
  | RecvEv.timeout :: _ => Except.error ()
  | RecvEv.chunk c :: rest =>
    if c = [] then Except.ok (resp, rest)
    else if containsSub okCRLF (resp ++ c) || containsSub okLF (resp ++ c) then
      Except.ok (resp ++ c, rest)
    else readUntilOk rest (resp ++ c)

/-- `send_and_receive(printer_address, command)`: connect, send the wake-up
`~M601 S1\r\n`, wait for `ok`, send `~<command>\r\n`, collect a response,
and always close the socket (`finally`).  Unhandled socket timeouts
propagate to the caller (modelled as `Err.transport`); the returned byte
response is decoded permissively by the caller. -/
def send_and_receive (evs : List RecvEv) (command : String) :
    List NetEvent × Except Err (List Nat) :=
  let initB := encodeStr "~M601 S1\r\n"
  match waitForOk evs [] with
  | Except.error _ =>
    ([NetEvent.connect, NetEvent.send initB, NetEvent.close], Except.error Err.transport)
  | Except.ok (_, evs1) =>
    let cmdB := encodeStr ("~" ++ command ++ "\r\n")
    match readUntilOk evs1 [] with
    | Except.error _ =>
      ([NetEvent.connect, NetEvent.send initB, NetEvent.send cmdB, NetEvent.close],
        Except.error Err.transport)
    | Except.ok (resp, _) =>
      ([NetEvent.connect, NetEvent.send initB, NetEvent.send cmdB, NetEvent.close],
        Except.ok resp)

/-- The `~M28 <size> 0:/user/<filename>\r\n` command line. -/
def m28Cmd (filename : String) (size : Nat) : String :=
  "~M28 " ++ toString size ++ " 0:/user/" ++ filename ++ "\r\n"

/-- `send_file(printer_address, filename, file_content)`: the full upload
session.  Any exception inside the `try` block (here: a recv timeout) is
re-raised as the blanket `Exception('Upload failed: …')` (`Err.upload`);
the socket is closed on every path (`finally`). -/
def send_file (evs : List RecvEv) (filename : String) (content : List Nat) :
    List NetEvent × Except Err String :=
  let t0 := [NetEvent.connect, NetEvent.send (encodeStr "~M601 S1\r\n")]
  match waitForOk evs [] with
  | Except.error _ => (t0 ++ [NetEvent.close], Except.error Err.upload)
  | Except.ok (_, evs1) =>
    let t1 := t0 ++ [NetEvent.send (encodeStr "~M650\r\n")]
    match waitForOk evs1 [] with
    | Except.error _ => (t1 ++ [NetEvent.close], Except.error Err.upload)
    | Except.ok (_, evs2) =>
      let t2 := t1 ++ [NetEvent.send (encodeStr (m28Cmd filename content.length))]
      match waitForOk evs2 [] with
      | Except.error _ => (t2 ++ [NetEvent.close], Except.error Err.upload)
      | Except.ok (_, evs3) =>
        let t3 := t2 ++ (sendFilePackets content).map
          fun p => NetEvent.send (packetBytes p)
        let t4 := t3 ++ [NetEvent.send (encodeStr "~M29\r\n")]
        match waitForOk evs3 [] with
        | Except.error _ => (t4 ++ [NetEvent.close], Except.error Err.upload)
        | Except.ok _ =>
          (t4 ++ [NetEvent.close],
            Except.ok ("File " ++ filename ++ " uploaded successfully"))

/-- `upload_file(printer_address, filename, file_content)` from
`protocol.py`: `if len(filename) > 36: raise ValueError(...)` before any
socket work, otherwise delegate to `send_file`. -/
def upload_file (evs : List RecvEv) (filename : String) (content : List Nat) :
    List NetEvent × Except Err String :=
  if filename.length > 36 then ([], Except.error Err.validation)
  else send_file evs filename content

/-- **C4.** A 36-character filename passes validation (the call proceeds
into `send_file` unchanged), while any filename of 37 or more characters
fails with the validation error before any socket is opened: the event
trace of the failing call is empty, so no connection attempt occurs. -/
theorem upload_file_validation (evs : List RecvEv) (filename : String)
    (content : List Nat) :
    (filename.length = 36 →
      upload_file evs filename content = send_file evs filename content) ∧
    (filename.length ≥ 37 →
      upload_file evs filename content = ([], Except.error Err.validation) ∧
      NetEvent.connect ∉ (upload_file evs filename content).1) := by
  constructor
  · intro h
    rw [upload_file, if_neg (by omega)]
  · intro h
    have e : upload_file evs filename content = ([], Except.error Err.validation) := by
      rw [upload_file, if_pos (by omega)]
    refine ⟨e, ?_⟩
    rw [e]
    simp

/-- Closed-form spot check discharging the hypotheses of
`upload_file_validation` on concrete filenames of lengths 36 and 37. -/
theorem upload_file_validation_spotcheck :
    upload_file [] (String.mk (List.replicate 36 'a')) []
      = send_file [] (String.mk (List.replicate 36 'a')) [] ∧
    upload_file [] (String.mk (List.replicate 37 'a')) []
      = ([], Except.error Err.validation) := by
  constructor
  · exact (upload_file_validation [] (String.mk (List.replicate 36 'a')) []).1
      (by decide)
  · exact ((upload_file_validation [] (String.mk (List.replicate 37 'a')) []).2
      (by decide)).1

theorem startsWith_append {α : Type} [DecidableEq α] :
    ∀ (pat l : List α), startsWith pat l = true →
      ∀ r, startsWith pat (l ++ r) = true := by
  intro pat
  induction pat with
  | nil => intro l _ r; rfl
  | cons p ps ih =>
    intro l h r
    cases l with
    | nil => simp [startsWith] at h
    | cons x xs =>
      simp only [startsWith, Bool.and_eq_true] at h ⊢
      exact ⟨h.1, ih xs h.2 r⟩

theorem containsSub_nil_pat {α : Type} [DecidableEq α] (l : List α) :
    containsSub ([] : List α) l = true := by
  cases l <;> simp [containsSub, startsWith]

theorem containsSub_append {α : Type} [DecidableEq α] :
    ∀ (pat l : List α), containsSub pat l = true →
      ∀ r, containsSub pat (l ++ r) = true := by
  intro pat l
  induction l with
  | nil =>
    intro h r
    have hpat : pat = [] := by
      cases pat with
      | nil => rfl
      | cons p ps => simp [containsSub, startsWith] at h
    subst hpat
    exact containsSub_nil_pat r
  | cons x t ih =>
    intro h r
    simp only [containsSub, Bool.or_eq_true] at h
    rcases h with h | h
    · simp only [List.cons_append, containsSub, Bool.or_eq_true]
      exact Or.inl (startsWith_append pat (x :: t) h r)
    · simp only [List.cons_append, containsSub, Bool.or_eq_true]
      exact Or.inr (ih h r)

/-- The concatenation of everything the peer script sends (data chunks). -/
def evsData : List RecvEv → List Nat
  | [] => []
  | RecvEv.chunk c :: rest => c ++ evsData rest
  | RecvEv.timeout :: rest => evsData rest

/-- The script consists only of nonempty data chunks followed by the
connection closing (script exhaustion). -/
def chunksOnly : List RecvEv → Bool
  | [] => true
  | RecvEv.chunk c :: rest => !c.isEmpty && chunksOnly rest
  | RecvEv.timeout :: _ => false

/-- If the peer sends data never containing `ok` and then closes, the
handshake wait loop consumes the whole script and terminates silently
(the `if not chunk: break` path), returning whatever accumulated. -/
theorem waitForOk_closed : ∀ (evs : List RecvEv) (acc : List Nat),
    chunksOnly evs = true →
    containsSub okBytes (acc ++ evsData evs) = false →
    waitForOk evs acc = Except.ok (acc ++ evsData evs, []) := by
  intro evs
  induction evs with
  | nil =>
    intro acc _ h2
    rw [evsData, List.append_nil] at h2 ⊢
    rw [waitForOk, if_neg (by rw [h2]; exact Bool.false_ne_true)]
  | cons e rest ih =>
    intro acc h1 h2
    cases e with
    | timeout => simp [chunksOnly] at h1
    | chunk c =>
      rw [chunksOnly, Bool.and_eq_true] at h1
      have hc : c ≠ [] := by
        intro hceq
        rw [hceq] at h1
        simp at h1
      rw [evsData] at h2
      have hacc : containsSub okBytes acc = false := by
        cases hca : containsSub okBytes acc
        · rfl
        · have := containsSub_append okBytes acc hca (c ++ evsData rest)
          rw [this] at h2
          exact absurd h2 (by simp)
      rw [waitForOk, if_neg (by rw [hacc]; exact Bool.false_ne_true), if_neg hc]
      have h2' : containsSub okBytes ((acc ++ c) ++ evsData rest) = false := by
        rw [List.append_assoc]
        exact h2
      rw [ih (acc ++ c) h1.2 h2', List.append_assoc]
      rw [evsData]

/-- **C5 (counterexample).** With a peer that closes the connection
immediately, before any response containing `ok`, `send_and_receive`
does not fail at all: it proceeds to send the target command (here
`M115`, wrapped as `~M115\r\n`) exactly as if the handshake had
succeeded, and returns an empty successful response — contradicting the
claim that this situation is a terminal ProtocolError and that the
target command is never sent. -/
theorem handshake_close_not_an_error :
    (send_and_receive [] "M115").2 = Except.ok [] ∧
    NetEvent.send (encodeStr "~M115\r\n") ∈ (send_and_receive [] "M115").1 := by
  decide

/-- **C5 (amended).** If the peer closes the connection before any
response containing `ok` has been observed, the handshake loop breaks
silently: `send_and_receive` raises no error, proceeds to send the
target command as if the handshake had succeeded, and returns the
(empty) remaining response. -/
theorem handshake_close_swallowed (evs : List RecvEv) (command : String)
    (h1 : chunksOnly evs = true)
    (h2 : containsSub okBytes (evsData evs) = false) :
    (send_and_receive evs command).2 = Except.ok [] ∧
    NetEvent.send (encodeStr ("~" ++ command ++ "\r\n"))
      ∈ (send_and_receive evs command).1 := by
  have hw := waitForOk_closed evs [] h1 (by simpa using h2)
  rw [List.nil_append] at hw
  simp [send_and_receive, hw, readUntilOk]

/-- Closed-form spot check discharging the hypotheses of
`handshake_close_swallowed` on a concrete script without `ok`. -/
theorem handshake_close_swallowed_spotcheck :
    (send_and_receive [RecvEv.chunk [65]] "M27").2 = Except.ok [] ∧
    NetEvent.send (encodeStr ("~" ++ "M27" ++ "\r\n"))
      ∈ (send_and_receive [RecvEv.chunk [65]] "M27").1 :=
  handshake_close_swallowed [RecvEv.chunk [65]] "M27" (by decide) (by decide)

/-- **C6.** If a read times out while the handshake loop is still waiting
for `ok`, `send_and_receive` surfaces the propagated timeout as a
transport-level error — distinguishable by the caller from a successful
call that returned empty output — and the socket is closed on this error
path (the `finally` block). -/
theorem handshake_timeout_surfaces (evs : List RecvEv) (command : String)
    (h : waitForOk evs [] = Except.error ()) :
    (send_and_receive evs command).2 = Except.error Err.transport ∧
    (send_and_receive evs command).2 ≠ Except.ok [] ∧
    NetEvent.close ∈ (send_and_receive evs command).1 := by
  simp [send_and_receive, h]

/-- Closed-form spot check discharging the hypothesis of
`handshake_timeout_surfaces` with a peer that times out immediately. -/
theorem handshake_timeout_surfaces_spotcheck :
    (send_and_receive [RecvEv.timeout] "M115").2 = Except.error Err.transport ∧
    NetEvent.close ∈ (send_and_receive [RecvEv.timeout] "M115").1 := by
  have h := handshake_timeout_surfaces [RecvEv.timeout] "M115" (by decide)
  exact ⟨h.1, h.2.2⟩

/-! ## Response parsing (`protocol.py`)

The regex searches of `get_temp` and `get_progress` are compiled to
deterministic scanners.  `re.search` tries each start position from the
left; at a given position each of the patterns below matches in at most
one way (every quantified class `[0-9.]+` / `[0-9]+` is followed either
by nothing or by a character outside the class, so greedy matching with
backtracking degenerates to taking the maximal run). -/

/-- The character class `[0-9.]`. -/
def numChar (c : Char) : Bool := c.isDigit || c = '.'

/-- Maximal `[0-9.]*` run at the front. -/
def takeNum (l : List Char) : List Char := l.takeWhile numChar

/-- `(-?[0-9.]+)` anchored at the current position: an optional minus sign
followed by a nonempty digit/dot run (the capture includes the sign). -/
def matchSignedNum : List Char → Option (List Char)
  | '-' :: r => if takeNum r = [] then none else some ('-' :: takeNum r)
  | l => if takeNum l = [] then none else some (takeNum l)

/-- `re.search`: try the anchored matcher at every start position, leftmost
first (including the empty suffix). -/
def scanFor {β : Type} (f : List Char → Option β) : List Char → Option β
  | [] => f []
  | l@(_ :: t) =>
    match f l with
    | some r => some r
    | none => scanFor f t

/-- `T0:(-?[0-9.]+)` anchored. -/
def tryT0Cur : List Char → Option (List Char)
  | 'T' :: '0' :: ':' :: r => matchSignedNum r
  | _ => none

/-- `T0:[0-9.]+ /(-?[0-9.]+)` anchored (note the mandatory space before
the slash, and no minus sign allowed in the current-temperature part). -/
def tryT0Tgt : List Char → Option (List Char)
  | 'T' :: '0' :: ':' :: r =>
    if takeNum r = [] then none
    else
      match r.drop (takeNum r).length with
      | ' ' :: '/' :: r2 => matchSignedNum r2
      | _ => none
  | _ => none

/-- `B:(-?[0-9.]+)` anchored. -/
def tryBCur : List Char → Option (List Char)
  | 'B' :: ':' :: r => matchSignedNum r
  | _ => none

/-- `B:[0-9.]+ /(-?[0-9.]+)` anchored. -/
def tryBTgt : List Char → Option (List Char)
  | 'B' :: ':' :: r =>
    if takeNum r = [] then none
    else
      match r.drop (takeNum r).length with
      | ' ' :: '/' :: r2 => matchSignedNum r2
      | _ => none
  | _ => none

/-- `if match: temp_info[name] = match.group(1)` — append the field when
the search succeeded, skip it entirely otherwise. -/
def addField (acc : List (String × String)) (name : String)
    (m : Option (List Char)) : List (String × String) :=
  match m with
  | some v => acc ++ [(name, String.mk v)]
  | none => acc

/-- `get_temp` from `protocol.py`, applied to the decoded response text:
four independent regex searches, each contributing a field only when it
matches. -/
def get_tempL (l : List Char) : List (String × String) :=
  addField (addField (addField (addField []
    "current_temperature" (scanFor tryT0Cur l))
    "target_temperature" (scanFor tryT0Tgt l))
    "bed_current_temperature" (scanFor tryBCur l))
    "bed_target_temperature" (scanFor tryBTgt l)

/-- `get_temp` on a `String` response. -/
def get_temp (s : String) : List (String × String) := get_tempL s.data

/-- **C3 (counterexample).** On the very format the claim quantifies over,
`T0:<c>/<t> B:<bc>/<bt>` with no space before the slash — e.g.
`"T0:200/210 B:60/60"` — the target patterns `T0:[0-9.]+ /(-?[0-9.]+)`
and `B:[0-9.]+ /(-?[0-9.]+)` require a space before the slash and fail,
so `get_temp` returns only the two current-temperature fields;
`target_temperature` (which the claim says equals `"210"`) and
`bed_target_temperature` are absent. -/
theorem get_temp_noSpace_counterexample :
    get_temp "T0:200/210 B:60/60"
      = [("current_temperature", "200"), ("bed_current_temperature", "60")] ∧
    List.lookup "target_temperature" (get_temp "T0:200/210 B:60/60") = none := by
  decide

/-- Nonempty run of `[0-9.]` characters. -/
def numRun (l : List Char) : Bool := !l.isEmpty && l.all numChar

/-- Optional minus sign followed by a nonempty `[0-9.]` run: the shape
`(-?[0-9.]+)` captures. -/
def signedRun : List Char → Bool
  | '-' :: r => numRun r
  | l => numRun l

theorem numRun_ne_nil {l : List Char} (h : numRun l = true) : l ≠ [] := by
  intro he
  rw [he] at h
  simp [numRun] at h

theorem numRun_mem {l : List Char} (h : numRun l = true) :
    ∀ x ∈ l, numChar x = true := by
  rw [numRun, Bool.and_eq_true, List.all_eq_true] at h
  exact h.2

theorem takeNum_append_run {c : List Char} (hall : ∀ x ∈ c, numChar x = true)
    {r : List Char} (hr : takeNum r = []) : takeNum (c ++ r) = c := by
  induction c with
  | nil => simpa [takeNum] using hr
  | cons x c' ih =>
    have h1 := hall x (List.mem_cons_self x c')
    have h2 := ih fun y hy => hall y (List.mem_cons_of_mem x hy)
    rw [takeNum] at h2 ⊢
    rw [List.cons_append, List.takeWhile_cons, if_pos h1, h2]

theorem matchSignedNum_eq_of_head_ne {x : Char} (l : List Char) (hx : x ≠ '-') :
    matchSignedNum (x :: l)
      = if takeNum (x :: l) = [] then none else some (takeNum (x :: l)) := by
  rw [matchSignedNum.eq_def]
  split
  · rename_i heq
    injection heq with h1 _
    exact absurd h1 hx
  · rfl

theorem signedRun_of_numRun {l : List Char} (h : numRun l = true) :
    signedRun l = true := by
  cases l with
  | nil => simpa [numRun] using h
  | cons x t =>
    have hx : numChar x = true := numRun_mem h x (List.mem_cons_self x t)
    have hne : x ≠ '-' := by
      intro he
      rw [he] at hx
      simp [numChar] at hx
    rw [signedRun.eq_def]
    split
    · rename_i heq
      exact absurd (congrArg List.head? heq) (by simp [hne])
    · exact h

theorem matchSignedNum_run {t : List Char} (ht : signedRun t = true)
    {r : List Char} (hr : takeNum r = []) : matchSignedNum (t ++ r) = some t := by
  cases t with
  | nil => simp [signedRun, numRun] at ht
  | cons x t' =>
    by_cases hx : x = '-'
    · subst hx
      have hnum : numRun t' = true := by simpa [signedRun] using ht
      have hne := numRun_ne_nil hnum
      rw [List.cons_append, matchSignedNum,
        takeNum_append_run (numRun_mem hnum) hr]
      rw [if_neg hne]
    · have hnum : numRun (x :: t') = true := by
        rw [signedRun.eq_def] at ht
        split at ht
        · rename_i heq
          exact absurd (congrArg List.head? heq) (by simp [hx])
        · exact ht
      have hall := numRun_mem hnum
      have hTN : takeNum (x :: (t' ++ r)) = x :: t' := takeNum_append_run hall hr
      rw [List.cons_append, matchSignedNum_eq_of_head_ne (t' ++ r) hx, hTN,
        if_neg (by simp)]

theorem scanFor_hit {β : Type} (f : List Char → Option β) {l : List Char}
    {r : β} (h : f l = some r) : scanFor f l = some r := by
  cases l with
  | nil => rw [scanFor, h]
  | cons x t => rw [scanFor, h]

theorem scanFor_append_of_ne {β : Type} (f : List Char → Option β) (ch : Char)
    (hf : ∀ (x : Char) (l : List Char), x ≠ ch → f (x :: l) = none) :
    ∀ (p : List Char), (∀ x ∈ p, x ≠ ch) →
      ∀ rest, scanFor f (p ++ rest) = scanFor f rest := by
  intro p
  induction p with
  | nil => intro _ rest; rfl
  | cons x p' ih =>
    intro hp rest
    have hx : x ≠ ch := hp x (List.mem_cons_self x p')
    rw [List.cons_append, scanFor, hf x _ hx]
    exact ih (fun y hy => hp y (List.mem_cons_of_mem x hy)) rest

theorem tryBCur_ne_head {x : Char} (l : List Char) (hx : x ≠ 'B') :
    tryBCur (x :: l) = none := by
  rw [tryBCur.eq_def]
  split
  · rename_i heq
    injection heq with h1 _
    exact absurd h1 hx
  · rfl

theorem tryBTgt_ne_head {x : Char} (l : List Char) (hx : x ≠ 'B') :
    tryBTgt (x :: l) = none := by
  rw [tryBTgt.eq_def]
  split
  · rename_i heq
    injection heq with h1 _
    exact absurd h1 hx
  · rfl

theorem numChar_ne {x : Char} (h : numChar x = true) {y : Char}
    (hy : numChar y = false) : x ≠ y := by
  intro he
  rw [he, hy] at h
  exact Bool.noConfusion h

theorem signedRun_mem {t : List Char} (ht : signedRun t = true) :
    ∀ x ∈ t, x = '-' ∨ numChar x = true := by
  cases t with
  | nil => intro x hx; simp at hx
  | cons y t' =>
    by_cases hy : y = '-'
    · subst hy
      have hnum : numRun t' = true := by simpa [signedRun] using ht
      intro x hx
      rcases List.mem_cons.mp hx with h | h
      · exact Or.inl h
      · exact Or.inr (numRun_mem hnum x h)
    · have hnum : numRun (y :: t') = true := by
        rw [signedRun.eq_def] at ht
        split at ht
        · rename_i heq
          exact absurd (congrArg List.head? heq) (by simp [hy])
        · exact ht
      intro x hx
      exact Or.inr (numRun_mem hnum x hx)

/-- **C3 (amended).** For every temperature response in which a space
precedes each slash — the format the regexes in `get_temp` actually
accept, `T0:<c> /<t> B:<bc> /<bt>` — with `<c>`, `<bc>` non-negative
numerals (digits and dots) and `<t>`, `<bt>` numerals optionally prefixed
by a minus sign, `get_temp` returns exactly the four fields
`current_temperature = c`, `target_temperature = t`,
`bed_current_temperature = bc`, `bed_target_temperature = bt`.  On the
claim's space-free format `T0:<c>/<t> B:<bc>/<bt>`, the two target
patterns fail to match and the corresponding fields are absent (never
null or garbage): see the counterexample. -/
theorem get_temp_spaced_format (c t bc bt : List Char)
    (hc : numRun c = true) (ht : signedRun t = true)
    (hbc : numRun bc = true) (hbt : signedRun bt = true) :
    get_temp (String.mk ('T' :: '0' :: ':' ::
        (c ++ ' ' :: '/' :: (t ++ ' ' :: 'B' :: ':' :: (bc ++ ' ' :: '/' :: bt)))))
      = [("current_temperature", String.mk c),
         ("target_temperature", String.mk t),
         ("bed_current_temperature", String.mk bc),
         ("bed_target_temperature", String.mk bt)] := by
  have hspace : numChar ' ' = false := by decide
  have hcall := numRun_mem hc
  have hbcall := numRun_mem hbc
  set rest2 : List Char := ' ' :: 'B' :: ':' :: (bc ++ ' ' :: '/' :: bt) with hrest2
  set L : List Char := 'T' :: '0' :: ':' :: (c ++ ' ' :: '/' :: (t ++ rest2))
    with hL
  have htakeRest2 : takeNum rest2 = [] := by
    rw [hrest2, takeNum, List.takeWhile_cons, if_neg (by rw [hspace]; simp)]
  -- current temperature: the pattern matches at position 0
  have h1 : scanFor tryT0Cur L = some c := by
    apply scanFor_hit
    rw [hL]
    show matchSignedNum (c ++ ' ' :: '/' :: (t ++ rest2)) = some c
    exact matchSignedNum_run (signedRun_of_numRun hc)
      (by rw [takeNum, List.takeWhile_cons, if_neg (by rw [hspace]; simp)])
  -- target temperature: digits, then the mandatory " /", then the capture
  have h2 : scanFor tryT0Tgt L = some t := by
    apply scanFor_hit
    rw [hL]
    show (if takeNum (c ++ ' ' :: '/' :: (t ++ rest2)) = [] then none
      else match (c ++ ' ' :: '/' :: (t ++ rest2)).drop
          (takeNum (c ++ ' ' :: '/' :: (t ++ rest2))).length with
        | ' ' :: '/' :: r2 => matchSignedNum r2
        | _ => none) = some t
    rw [takeNum_append_run hcall
      (by rw [takeNum, List.takeWhile_cons, if_neg (by rw [hspace]; simp)])]
    rw [if_neg (numRun_ne_nil hc), List.drop_left]
    show matchSignedNum (t ++ rest2) = some t
    exact matchSignedNum_run ht htakeRest2
  -- the prefix before "B:" contains no 'B', so both bed scans skip it
  have hsplit : L = ('T' :: '0' :: ':' :: (c ++ ' ' :: '/' :: (t ++ [' '])))
      ++ ('B' :: ':' :: (bc ++ ' ' :: '/' :: bt)) := by
    rw [hL, hrest2]
    simp
  have hpB : ∀ x ∈ 'T' :: '0' :: ':' :: (c ++ ' ' :: '/' :: (t ++ [' '])),
      x ≠ 'B' := by
    intro x hx
    rcases List.mem_cons.mp hx with h | hx
    · rw [h]; decide
    rcases List.mem_cons.mp hx with h | hx
    · rw [h]; decide
    rcases List.mem_cons.mp hx with h | hx
    · rw [h]; decide
    rcases List.mem_append.mp hx with h | hx
    · exact numChar_ne (hcall x h) (by decide)
    rcases List.mem_cons.mp hx with h | hx
    · rw [h]; decide
    rcases List.mem_cons.mp hx with h | hx
    · rw [h]; decide
    rcases List.mem_append.mp hx with h | hx
    · rcases signedRun_mem ht x h with h | h
      · rw [h]; decide
      · exact numChar_ne h (by decide)
    · rw [List.mem_singleton.mp hx]; decide
  have h3 : scanFor tryBCur L = some bc := by
    rw [hsplit, scanFor_append_of_ne tryBCur 'B'
      (fun x l hx => tryBCur_ne_head l hx) _ hpB]
    apply scanFor_hit
    show matchSignedNum (bc ++ ' ' :: '/' :: bt) = some bc
    exact matchSignedNum_run (signedRun_of_numRun hbc)
      (by rw [takeNum, List.takeWhile_cons, if_neg (by rw [hspace]; simp)])
  have h4 : scanFor tryBTgt L = some bt := by
    rw [hsplit, scanFor_append_of_ne tryBTgt 'B'
      (fun x l hx => tryBTgt_ne_head l hx) _ hpB]
    apply scanFor_hit
    show (if takeNum (bc ++ ' ' :: '/' :: bt) = [] then none
      else match (bc ++ ' ' :: '/' :: bt).drop
          (takeNum (bc ++ ' ' :: '/' :: bt)).length with
        | ' ' :: '/' :: r2 => matchSignedNum r2
        | _ => none) = some bt
    rw [takeNum_append_run hbcall
      (by rw [takeNum, List.takeWhile_cons, if_neg (by rw [hspace]; simp)])]
    rw [if_neg (numRun_ne_nil hbc), List.drop_left]
    show matchSignedNum bt = some bt
    have := matchSignedNum_run hbt (r := []) (by rfl)
    rwa [List.append_nil] at this
  show get_tempL L = _
  rw [get_tempL, h1, h2, h3, h4]
  rfl

/-- Closed-form spot check discharging the hypotheses of
`get_temp_spaced_format` on the device's documented example format. -/
theorem get_temp_spaced_format_spotcheck :
    get_temp (String.mk ('T' :: '0' :: ':' ::
        ("210".data ++ ' ' :: '/' :: ("210".data ++ ' ' :: 'B' :: ':' ::
          ("0".data ++ ' ' :: '/' :: "-5.5".data)))))
      = [("current_temperature", "210"), ("target_temperature", "210"),
         ("bed_current_temperature", "0"), ("bed_target_temperature", "-5.5")] :=
  get_temp_spaced_format "210".data "210".data "0".data "-5.5".data
    (by decide) (by decide) (by decide) (by decide)

/-! ## Progress parsing (`get_progress` in `protocol.py`) -/

/-- `([0-9]+)/([0-9]+)` anchored at the current position.  The first group
is the maximal digit run (a shorter greedy backtrack would put a digit
where the `/` must be), then the slash, then the maximal digit run. -/
def tryProgress (l : List Char) : Option (List Char × List Char) :=
  let d1 := l.takeWhile Char.isDigit
  if d1 = [] then none
  else
    match l.drop d1.length with
    | '/' :: r =>
      let d2 := r.takeWhile Char.isDigit
      if d2 = [] then none else some (d1, d2)
    | _ => none

/-- `re.search(r'([0-9]+)/([0-9]+)', response)`. -/
def progressMatch (l : List Char) : Option (List Char × List Char) :=
  scanFor tryProgress l

/-- `int()` on a digit string. -/
def natOfDigits (l : List Char) : Nat :=
  l.foldl (fun n c => n * 10 + (c.toNat - 48)) 0

/-- Python's `round(q, 2)` modelled on exact rationals: scale by 100,
round half to even, scale back. -/
def pyRound2 (q : ℚ) : ℚ :=
  let s := q * 100
  let f : ℤ := ⌊s⌋
  let r : ℚ := s - (f : ℚ)
  let n : ℤ :=
    if r < 1 / 2 then f
    else if 1 / 2 < r then f + 1
    else if f % 2 = 0 then f else f + 1
  (n : ℚ) / 100

/-- The dictionary built by `get_progress`: each key is present exactly
when the code assigned it. -/
structure ProgressInfo where
  current_byte : Option Nat
  total_bytes : Option Nat
  percentage : Option ℚ
deriving DecidableEq

/-- `get_progress` from `protocol.py`, applied to the decoded response:
search for `([0-9]+)/([0-9]+)`; on a match store both integers and, only
when the total is positive, the rounded percentage. -/
def get_progressL (l : List Char) : ProgressInfo :=
  match progressMatch l with
  | none => { current_byte := none, total_bytes := none, percentage := none }
  | some (d1, d2) =>
    let current := natOfDigits d1
    let total := natOfDigits d2
    { current_byte := some current
      total_bytes := some total
      percentage :=
        if total > 0 then some (pyRound2 ((current : ℚ) / (total : ℚ) * 100))
        else none }

/-- `get_progress` on a `String` response. -/
def get_progress (s : String) : ProgressInfo := get_progressL s.data

theorem pyRound2_concrete : pyRound2 ((1234 : ℚ) / 5678 * 100) = 2173 / 100 := by
  simp only [pyRound2]
  have hf : ⌊(1234 : ℚ) / 5678 * 100 * 100⌋ = (2173 : ℤ) := by
    rw [Int.floor_eq_iff] <;> norm_num
  rw [hf, if_pos (by norm_num)]
  norm_num

/-- **C7 (counterexample).** On `"1234/5678"` the computed percentage is
`round(1234/5678*100, 2) = round(21.7330…, 2) = 21.73`, not the `21.74`
the claim states. -/
theorem get_progress_percentage_counterexample :
    (get_progress "1234/5678").percentage = some (2173 / 100 : ℚ) ∧
    (2173 / 100 : ℚ) ≠ (2174 / 100 : ℚ) := by
  constructor
  · have hm : progressMatch ("1234/5678".data)
        = some ("1234".data, "5678".data) := by decide
    show (get_progressL ("1234/5678".data)).percentage = _
    rw [get_progressL, hm]
    have h1 : natOfDigits ("1234".data) = 1234 := by decide
    have h2 : natOfDigits ("5678".data) = 5678 := by decide
    simp only [h1, h2]
    rw [if_pos (by norm_num)]
    push_cast
    rw [pyRound2_concrete]
  · norm_num

/-- **C7 (amended).** `get_progress` on a response containing `1234/5678`
returns current byte 1234, total 5678 and percentage
`round(1234/5678*100, 2) = 21.73`; and whenever the matched total is `0`,
both integers are still returned while the `percentage` field is omitted
(no division is performed). -/
theorem get_progress_fields (l : List Char) (d1 d2 : List Char)
    (hm : progressMatch l = some (d1, d2)) (hz : natOfDigits d2 = 0) :
    get_progressL l =
      { current_byte := some (natOfDigits d1), total_bytes := some 0,
        percentage := none } ∧
    get_progress "1234/5678" =
      { current_byte := some 1234, total_bytes := some 5678,
        percentage := some (2173 / 100 : ℚ) } := by
  constructor
  · rw [get_progressL, hm]
    simp [hz]
  · have hm9 : progressMatch ("1234/5678".data)
        = some ("1234".data, "5678".data) := by decide
    show get_progressL ("1234/5678".data) = _
    rw [get_progressL, hm9]
    have h1 : natOfDigits ("1234".data) = 1234 := by decide
    have h2 : natOfDigits ("5678".data) = 5678 := by decide
    simp only [h1, h2]
    rw [if_pos (by norm_num)]
    push_cast
    rw [pyRound2_concrete]

/-- Closed-form spot check discharging the hypotheses of
`get_progress_fields` on a concrete zero-total response. -/
theorem get_progress_fields_spotcheck :
    get_progressL ("55/0".data) =
      { current_byte := some 55, total_bytes := some 0, percentage := none } :=
  (get_progress_fields ("55/0".data) "55".data "0".data
    (by decide) (by decide)).1

/-! ## Home command (`home_printer` in `protocol.py`) -/

/-- Python `str.upper()` (ASCII case map; axis names are ASCII). -/
def pyUpper (l : List Char) : List Char := l.map Char.toUpper

/-- The G-code command built by `home_printer`: `G28` when
`axis.upper() == 'ALL'`, else `G28 <axis.upper()>`. -/
def homeCommand (axis : List Char) : List Char :=
  if pyUpper axis = "ALL".data then "G28".data
  else "G28 ".data ++ pyUpper axis

/-- `home_printer(printer_address, axis='all')`: the command it sends
through `send_and_receive`. -/
def home_printer (axis : List Char := "all".data) : List Char :=
  homeCommand axis

/-- **C9.** `home_printer` with axis `"all"` — or with the axis argument
omitted, whose default is `"all"` — sends `G28` with no axis token; with
axis `"x"` it sends `G28 X`; and for every axis whose uppercasing is not
`ALL` the command is `G28 ` followed by the axis uppercased. -/
theorem home_command_shape :
    home_printer = "G28".data ∧
    homeCommand ("all".data) = "G28".data ∧
    homeCommand ("x".data) = "G28 X".data ∧
    ∀ axis : List Char, pyUpper axis ≠ "ALL".data →
      homeCommand axis = "G28 ".data ++ pyUpper axis := by
  refine ⟨by decide, by decide, by decide, ?_⟩
  intro axis h
  rw [homeCommand, if_neg h]

/-- Closed-form spot check discharging the hypothesis of
`home_command_shape` on a concrete non-`all` axis. -/
theorem home_command_shape_spotcheck :
    homeCommand ("y".data) = "G28 Y".data :=
  (home_command_shape.2.2.2 ("y".data) (by decide)).trans (by decide)

/-! ## Info parsing (`get_info` in `protocol.py`) -/

/-- Whitespace for Python's default `str.strip()` (ASCII protocol text). -/
def isWs (c : Char) : Bool := c.isWhitespace

/-- Python `str.strip()`: remove leading and trailing whitespace. -/
def pyStrip (l : List Char) : List Char :=
  ((l.dropWhile isWs).reverse.dropWhile isWs).reverse

/-- Python `str.split(sep)` for a one-character separator. -/
def splitOnChar (sep : Char) : List Char → List (List Char)
  | [] => [[]]
  | x :: t =>
    if x = sep then [] :: splitOnChar sep t
    else
      match splitOnChar sep t with
      | [] => [[x]]
      | h :: r => (x :: h) :: r

/-- Python `line.split(':', 1)` restricted to lines containing a colon:
the part before the first colon and the part after it. -/
def splitFirstColon : List Char → List Char × List Char
  | [] => ([], [])
  | c :: t =>
    if c = ':' then ([], t)
    else (c :: (splitFirstColon t).1, (splitFirstColon t).2)

/-- Python-dict insertion on an ordered association list: replace the value
in place when the key exists, else append (`info[key] = value`). -/
def dictInsert (d : List (List Char × List Char)) (k v : List Char) :
    List (List Char × List Char) :=
  match d with
  | [] => [(k, v)]
  | (k0, v0) :: t => if k0 = k then (k0, v) :: t else (k0, v0) :: dictInsert t k v

def cmdChars : List Char := ['C', 'M', 'D']

def okChars : List Char := ['o', 'k']

/-- The per-line guard of `get_info`:
`':' in line and 'CMD' not in line and 'ok' not in line` — all three are
Python substring tests. -/
def infoLineGuard (line : List Char) : Bool :=
  line.contains ':' && !containsSub cmdChars line && !containsSub okChars line

/-- `get_info` from `protocol.py` applied to the decoded response text:
split on newlines; for each line passing the guard, strip the line, split
at the first colon (`split(':', 1)`; the `len(key_value) == 2` test is the
inner condition), strip key and value, and insert into the dict. -/
def get_infoL (resp : List Char) : List (List Char × List Char) :=
  (splitOnChar '\n' resp).foldl
    (fun info line =>
      if infoLineGuard line then
        if (pyStrip line).contains ':' then
          dictInsert info (pyStrip (splitFirstColon (pyStrip line)).1)
            (pyStrip (splitFirstColon (pyStrip line)).2)
        else info
      else info)
    []

/-- `get_info` on a `String` response. -/
def get_info (s : String) : List (List Char × List Char) := get_infoL s.data

/-- The field one qualifying line contributes, with the qualification
condition the code actually uses (substring `ok`): split the line at its
first colon and trim both parts. -/
def fieldOfLine (line : List Char) : Option (List Char × List Char) :=
  if infoLineGuard line then
    some (pyStrip (splitFirstColon line).1, pyStrip (splitFirstColon line).2)
  else none

/-- Whether `ok` occurs as a standalone whitespace-delimited token;
`prevWs` records whether the previous character was a token boundary. -/
def hasTokOk (prevWs : Bool) : List Char → Bool
  | [] => false
  | c :: t =>
    (prevWs && decide (c = 'o') &&
      (match t with
       | 'k' :: r =>
         (match r with
          | [] => true
          | y :: _ => isWs y)
       | _ => false))
    || hasTokOk (isWs c) t

/-- Modelled from the spec: the claim's qualifying condition as stated —
a colon, no substring `CMD`, and no *standalone token* `ok`. -/
def specLineGuard (line : List Char) : Bool :=
  line.contains ':' && !containsSub cmdChars line && !hasTokOk true line

/-- Modelled from the spec: `get_info` as the claim states it, inserting
exactly the lines that satisfy `specLineGuard`. -/
def get_info_claim (resp : List Char) : List (List Char × List Char) :=
  (splitOnChar '\n' resp).foldl
    (fun info line =>
      if specLineGuard line then
        dictInsert info (pyStrip (splitFirstColon line).1)
          (pyStrip (splitFirstColon line).2)
      else info)
    []

/-- **C8 (counterexample).** The code tests `'ok' not in line` — a
substring test, not a standalone-token test.  The line `"Token: abc"`
contains a colon, no `CMD` and no standalone token `ok`, so the claim
requires it to be inserted as `Token ↦ abc`; but `Token` contains `ok` as
a substring, so `get_info` inserts nothing. -/
theorem get_info_token_counterexample :
    get_infoL ("Token: abc".data) = [] ∧
    get_info_claim ("Token: abc".data) = [("Token".data, "abc".data)] := by
  decide

theorem contains_iff_mem (l : List Char) (c : Char) :
    l.contains c = true ↔ c ∈ l := by
  induction l with
  | nil => simp
  | cons x t ih => simp [List.contains_cons, ih]

theorem dropWhile_barrier (p : Char → Bool) (a : List Char) {c : Char}
    (hc : p c = false) (b : List Char) :
    (a ++ c :: b).dropWhile p = a.dropWhile p ++ c :: b := by
  induction a with
  | nil => simp [List.dropWhile_cons, hc]
  | cons x a' ih =>
    by_cases hx : p x
    · simp [List.dropWhile_cons, hx, ih]
    · simp [List.dropWhile_cons, hx]

theorem reverse_append_cons (X Y : List Char) (c : Char) :
    (X ++ c :: Y).reverse = Y.reverse ++ c :: X.reverse := by
  simp

theorem pyStrip_decomp (a b : List Char) :
    pyStrip (a ++ ':' :: b)
      = a.dropWhile isWs ++ ':' :: (b.reverse.dropWhile isWs).reverse := by
  rw [pyStrip, dropWhile_barrier isWs a (by decide) b, reverse_append_cons,
    dropWhile_barrier isWs b.reverse (by decide) (a.dropWhile isWs).reverse,
    reverse_append_cons, List.reverse_reverse]

theorem splitFirstColon_append (a : List Char) (ha : ':' ∉ a) (b : List Char) :
    splitFirstColon (a ++ ':' :: b) = (a, b) := by
  induction a with
  | nil => simp [splitFirstColon]
  | cons x a' ih =>
    have hx : x ≠ ':' := by
      intro he
      exact ha (he ▸ List.mem_cons_self x a')
    have ha' : ':' ∉ a' := fun hm => ha (List.mem_cons_of_mem x hm)
    rw [List.cons_append, splitFirstColon, if_neg hx, ih ha']

theorem splitFirstColon_spec (l : List Char) (h : ':' ∈ l) :
    l = (splitFirstColon l).1 ++ ':' :: (splitFirstColon l).2 ∧
    ':' ∉ (splitFirstColon l).1 := by
  induction l with
  | nil => simp at h
  | cons c t ih =>
    by_cases hc : c = ':'
    · subst hc
      rw [splitFirstColon, if_pos rfl]
      exact ⟨rfl, by simp⟩
    · have ht : ':' ∈ t := by
        rcases List.mem_cons.mp h with h1 | h1
        · exact absurd h1.symm hc
        · exact h1
      obtain ⟨e1, e2⟩ := ih ht
      rw [splitFirstColon, if_neg hc]
      constructor
      · show c :: t = (c :: (splitFirstColon t).1) ++ ':' :: (splitFirstColon t).2
        rw [List.cons_append, ← e1]
      · intro hm
        rcases List.mem_cons.mp hm with h1 | h1
        · exact hc h1.symm
        · exact e2 h1

theorem dropWhile_idem_ws (a : List Char) :
    (a.dropWhile isWs).dropWhile isWs = a.dropWhile isWs := by
  induction a with
  | nil => rfl
  | cons x t ih =>
    by_cases hx : isWs x
    · simp [List.dropWhile_cons, hx, ih]
    · simp [List.dropWhile_cons, hx]

theorem pyStrip_ldrop (a : List Char) :
    pyStrip (a.dropWhile isWs) = pyStrip a := by
  rw [pyStrip, pyStrip, dropWhile_idem_ws]

theorem pyStrip_append_ws (l : List Char) {x : Char} (hx : isWs x = true) :
    pyStrip (l ++ [x]) = pyStrip l := by
  rw [pyStrip, pyStrip, List.dropWhile_append]
  split
  · rename_i he
    rw [List.dropWhile_cons, if_pos hx]
    have he' : l.dropWhile isWs = [] := by simpa using he
    rw [he']
    rfl
  · rw [show (l.dropWhile isWs ++ [x]).reverse = x :: (l.dropWhile isWs).reverse by
      simp, List.dropWhile_cons, if_pos hx]

theorem pyStrip_rdrop_aux : ∀ r : List Char,
    pyStrip ((r.dropWhile isWs).reverse) = pyStrip r.reverse := by
  intro r
  induction r with
  | nil => rfl
  | cons x t ih =>
    by_cases hx : isWs x
    · rw [List.dropWhile_cons, if_pos hx, ih, List.reverse_cons,
        pyStrip_append_ws t.reverse hx]
    · rw [List.dropWhile_cons, if_neg hx]

theorem pyStrip_rdrop (b : List Char) :
    pyStrip ((b.reverse.dropWhile isWs).reverse) = pyStrip b := by
  have := pyStrip_rdrop_aux b.reverse
  rwa [List.reverse_reverse] at this

theorem strip_split_comm (line : List Char) (h : line.contains ':' = true) :
    pyStrip (splitFirstColon (pyStrip line)).1
        = pyStrip (splitFirstColon line).1 ∧
    pyStrip (splitFirstColon (pyStrip line)).2
        = pyStrip (splitFirstColon line).2 := by
  obtain ⟨e1, e2⟩ := splitFirstColon_spec line ((contains_iff_mem line ':').mp h)
  set a := (splitFirstColon line).1 with ha
  set b := (splitFirstColon line).2 with hb
  have hstrip : pyStrip line
      = a.dropWhile isWs ++ ':' :: (b.reverse.dropWhile isWs).reverse := by
    rw [show pyStrip line = pyStrip (a ++ ':' :: b) by rw [← e1]]
    exact pyStrip_decomp a b
  have hno : ':' ∉ a.dropWhile isWs := fun hm => e2 (List.dropWhile_subset _ hm)
  rw [hstrip, splitFirstColon_append (a.dropWhile isWs) hno]
  exact ⟨pyStrip_ldrop a, pyStrip_rdrop b⟩

theorem pyStrip_contains_colon (line : List Char)
    (h : line.contains ':' = true) : (pyStrip line).contains ':' = true := by
  obtain ⟨e1, _⟩ := splitFirstColon_spec line ((contains_iff_mem line ':').mp h)
  rw [contains_iff_mem]
  rw [show pyStrip line = pyStrip ((splitFirstColon line).1 ++ ':' ::
    (splitFirstColon line).2) by rw [← e1], pyStrip_decomp]
  exact List.mem_append.mpr (Or.inr (List.mem_cons_self _ _))

theorem get_infoL_eq_foldl (lines : List (List Char)) :
    ∀ init : List (List Char × List Char),
      lines.foldl (fun info line =>
        if infoLineGuard line then
          if (pyStrip line).contains ':' then
            dictInsert info (pyStrip (splitFirstColon (pyStrip line)).1)
              (pyStrip (splitFirstColon (pyStrip line)).2)
          else info
        else info) init
        = (lines.filterMap fieldOfLine).foldl
            (fun d p => dictInsert d p.1 p.2) init := by
  induction lines with
  | nil => intro init; rfl
  | cons l t ih =>
    intro init
    simp only [List.foldl_cons, List.filterMap_cons]
    by_cases hg : infoLineGuard l = true
    · have hcolon : l.contains ':' = true := by
        rw [infoLineGuard, Bool.and_eq_true, Bool.and_eq_true] at hg
        exact hg.1.1
      obtain ⟨c1, c2⟩ := strip_split_comm l hcolon
      have hfl : fieldOfLine l
          = some (pyStrip (splitFirstColon l).1,
                  pyStrip (splitFirstColon l).2) := by
        rw [fieldOfLine, if_pos hg]
      rw [if_pos hg, if_pos (pyStrip_contains_colon l hcolon), c1, c2, hfl]
      show t.foldl (fun info line =>
          if infoLineGuard line then
            if (pyStrip line).contains ':' then
              dictInsert info (pyStrip (splitFirstColon (pyStrip line)).1)
                (pyStrip (splitFirstColon (pyStrip line)).2)
            else info
          else info)
          (dictInsert init (pyStrip (splitFirstColon l).1)
            (pyStrip (splitFirstColon l).2))
        = ((pyStrip (splitFirstColon l).1, pyStrip (splitFirstColon l).2)
            :: t.filterMap fieldOfLine).foldl
            (fun d p => dictInsert d p.1 p.2) init
      rw [List.foldl_cons]
      exact ih _
    · have hfl : fieldOfLine l = none := by
        rw [fieldOfLine, if_neg hg]
      rw [if_neg hg, hfl]
      show t.foldl (fun info line =>
          if infoLineGuard line then
            if (pyStrip line).contains ':' then
              dictInsert info (pyStrip (splitFirstColon (pyStrip line)).1)
                (pyStrip (splitFirstColon (pyStrip line)).2)
            else info
          else info) init
        = (t.filterMap fieldOfLine).foldl (fun d p => dictInsert d p.1 p.2) init
      exact ih init

theorem lookup_singleton (k1 v1 key : List Char) :
    List.lookup key [(k1, v1)] = if key = k1 then some v1 else none := by
  by_cases h : key = k1
  · subst h
    simp [List.lookup_cons]
  · rw [if_neg h, List.lookup_cons, show (key == k1) = false by simpa using h]
    rfl

theorem lookup_dictInsert (d : List (List Char × List Char)) (k v key : List Char) :
    List.lookup key (dictInsert d k v)
      = if key = k then some v else List.lookup key d := by
  induction d with
  | nil =>
    by_cases h : key = k
    · subst h
      simp [dictInsert, List.lookup_cons]
    · rw [dictInsert, if_neg h, List.lookup_cons,
        show (key == k) = false by simpa using h]
  | cons p t ih =>
    obtain ⟨k0, v0⟩ := p
    by_cases h0 : k0 = k
    · subst h0
      rw [dictInsert, if_pos rfl]
      by_cases h : key = k0
      · subst h
        simp [List.lookup_cons]
      · rw [if_neg h, List.lookup_cons, List.lookup_cons,
          show (key == k0) = false by simpa using h]
    · rw [dictInsert, if_neg h0]
      by_cases h : key = k0
      · have hkk : ¬key = k := by
          rw [h]
          exact h0
        rw [if_neg hkk, List.lookup_cons, List.lookup_cons,
          show (key == k0) = true by simpa using h]
      · rw [List.lookup_cons, List.lookup_cons,
          show (key == k0) = false by simpa using h]
        show List.lookup key (dictInsert t k v)
          = if key = k then some v else List.lookup key t
        exact ih

theorem lookup_foldl_dictInsert :
    ∀ (ps : List (List Char × List Char))
      (init : List (List Char × List Char)) (key : List Char),
      List.lookup key (ps.foldl (fun d p => dictInsert d p.1 p.2) init)
        = (List.lookup key ps.reverse).or (List.lookup key init) := by
  intro ps
  induction ps with
  | nil => intro init key; simp
  | cons p t ih =>
    intro init key
    obtain ⟨k1, v1⟩ := p
    rw [List.foldl_cons, ih, List.reverse_cons, List.lookup_append,
      lookup_dictInsert, Option.or_assoc, lookup_singleton]
    by_cases h : key = k1 <;> simp [h]

theorem dictInsert_keys (d : List (List Char × List Char)) (k v : List Char) :
    (dictInsert d k v).map Prod.fst
      = if k ∈ d.map Prod.fst then d.map Prod.fst
        else d.map Prod.fst ++ [k] := by
  induction d with
  | nil => simp [dictInsert]
  | cons p t ih =>
    obtain ⟨k0, v0⟩ := p
    by_cases h0 : k0 = k
    · subst h0
      rw [dictInsert, if_pos rfl]
      simp
    · rw [dictInsert, if_neg h0]
      simp only [List.map_cons, ih]
      by_cases hk : k ∈ t.map Prod.fst
      · rw [if_pos hk, if_pos (by simp [hk])]
      · rw [if_neg hk, if_neg (by simp [hk, Ne.symm h0]), List.cons_append]

theorem nodup_foldl_dictInsert :
    ∀ (ps : List (List Char × List Char))
      (init : List (List Char × List Char)),
      (init.map Prod.fst).Nodup →
      ((ps.foldl (fun d p => dictInsert d p.1 p.2) init).map Prod.fst).Nodup := by
  intro ps
  induction ps with
  | nil => intro init h; exact h
  | cons p t ih =>
    intro init h
    rw [List.foldl_cons]
    apply ih
    rw [dictInsert_keys]
    split
    · exact h
    · rename_i hk
      refine List.Nodup.append h (List.nodup_singleton _) ?_
      intro x hx hmem
      rw [List.mem_singleton.mp hmem] at hx
      exact hk hx

/-- **C8 (amended).** In `get_info`, a line of the response is inserted as
a key/value field exactly when it contains a colon, does not contain the
substring `CMD`, and does not contain the *substring* `ok` (the code's
`'ok' not in line` is a substring test, not the claim's standalone-token
test — see the counterexample); a qualifying line is split on its first
colon with both key and value trimmed of surrounding whitespace, and when
the same key occurs on several lines the last occurrence wins.  The
resulting dictionary has unique keys. -/
theorem get_info_fields (resp : String) (key : List Char) :
    List.lookup key (get_info resp)
      = List.lookup key
          ((splitOnChar '\n' resp.data).filterMap fieldOfLine).reverse ∧
    ((get_info resp).map Prod.fst).Nodup := by
  have e0 : get_infoL resp.data
      = ((splitOnChar '\n' resp.data).filterMap fieldOfLine).foldl
          (fun d p => dictInsert d p.1 p.2) [] := by
    rw [get_infoL]
    exact get_infoL_eq_foldl (splitOnChar '\n' resp.data) []
  constructor
  · show List.lookup key (get_infoL resp.data) = _
    rw [e0, lookup_foldl_dictInsert]
    simp
  · show ((get_infoL resp.data).map Prod.fst).Nodup
    rw [e0]
    exact nodup_foldl_dictInsert _ [] (by simp)

end FlashForge
